import Mathlib

/-!
# AgentState storage engine — shallow embedding

A shallow embedding of the parts of the `agentstate` storage engine that the
verified claims are about:

* `crates/agentstate-core/src/model.rs` — the `Object` version record;
* `crates/agentstate-storage/src/mem.rs` — `InMemoryStore` (`Inner`): per-namespace
  commit counters and commit log, put/delete, watch buffers and subscribe,
  leases, idempotency records, fence validation, replay helpers;
* `crates/agentstate-storage/src/persistent.rs` — `PersistentStore::open` WAL
  replay and the WAL-append error path of the persistent operations;
* `crates/agentstate-storage/src/walbin.rs` — WAL record framing (`append`),
  CRC32C, and per-segment `replay` decoding.

Modelling conventions:

* Rust `HashMap`s become Lean functions into `Option`; an absent key is `none`.
  `entry(..).or_default()` on the commit log becomes a total function defaulting
  to `[]`.
* `chrono::DateTime<Utc>` instants are modelled as `Nat` (an absolute tick);
  `now + Duration::seconds(ttl)` becomes `now + ttl`, and `expires > now`
  becomes `now < expires`.
* Machine integers (`u64` counters, tokens) are modelled as `Nat`: they are only
  ever incremented starting from 0, so wrap-around is unreachable along any
  modelled run.  Bytes in the WAL are `Nat` with an explicit `< 256` bound where
  it matters; the CRC32C state is a `Nat` kept `< 2 ^ 32` by construction.
* External libraries are abstracted: the serialized-JSON size estimate used by
  `WatchBuffer::push` (`serde_json::to_vec(..).len()`) is a parameter
  `approxPut`, and the CBOR body codec used by the WAL (`ciborium`) is a
  parameter pair (`encodeBody`/`decodeBody`) related by a round-trip hypothesis.
  CRC32C (`crc32c` crate) is embedded concretely as the standard Castagnoli CRC
  (reflected polynomial `0x82F63B78`) that the crate implements.
* `Object` keeps the fields the claims read (`id`, `ns`, `commit_seq`); the
  payload fields (`type`, `body`, `tags`, `ttl_seconds`, `parents`, `commit`,
  `ts`) and the tag/JSON secondary indexes of `Inner` are not modelled — no
  claim reads them and maintaining them writes only to the omitted index maps.
* Nondeterministic inputs of `put` (the ULID assigned when the request carries
  no id, the `Utc::now()` timestamp) are oracle parameters of the operation.
-/

namespace AgentState

/-- Errors the engine produces (`agentstate-core/src/errors.rs`). -/
inductive StateError where
  | notFound : StateError
  | conflict (msg : String) : StateError
  | invalid (msg : String) : StateError
  | internal (msg : String) : StateError
  deriving DecidableEq, Repr

/-- An object version (`agentstate-core/src/model.rs`, `Object`), restricted to
the fields the verified claims read. `commit_seq` is the per-namespace monotonic
counter value stamped by `Object::new_with_seq`. -/
structure Object where
  id : String
  ns : String
  commit_seq : Nat
  deriving DecidableEq, Repr

/-- A change event (`agentstate-storage/src/traits.rs`, `WatchEvent`). -/
inductive WatchEvent where
  | put (o : Object) : WatchEvent
  | delete (ns id : String) (commit_seq : Nat) : WatchEvent
  deriving DecidableEq, Repr

/-- The commit sequence embedded in an event (the match performed at
`mem.rs:377-380` and `mem.rs:597-600`). -/
def WatchEvent.seq : WatchEvent → Nat
  | .put o => o.commit_seq
  | .delete _ _ c => c

/-- An idempotency record (`agentstate-storage/src/traits.rs`,
`IdempotencyRecord`); `response` stands for the cached JSON value. -/
structure IdempotencyRecord where
  ns : String
  key : String
  body_hash : String
  response_hash : String
  commit_seq : Nat
  expires_at : Nat
  response : String
  deriving DecidableEq, Repr

/-- A granted lease (`agentstate-storage/src/traits.rs`, `Lease`). -/
structure Lease where
  ns : String
  key : String
  owner : String
  token : Nat
  expires_at : Nat
  deriving DecidableEq, Repr

/-- Pointwise update of a map modelled as a function (the effect of
`HashMap::insert` / `entry(..).or_insert(..)` writes). -/
def upd {α : Type} {β : Type} [DecidableEq α] (f : α → β) (a : α) (b : β) : α → β :=
  fun x => if x = a then b else f x

@[simp] theorem upd_same {α β : Type} [DecidableEq α] (f : α → β) (a : α) (b : β) :
    upd f a b a = b := by simp [upd]

@[simp] theorem upd_other {α β : Type} [DecidableEq α] (f : α → β) (a : α) (b : β)
    (x : α) (h : x ≠ a) : upd f a b x = f x := by simp [upd, h]

/-- Configuration read by `WatchBuffer::push` (`mem.rs:49-60`): the event cap
(`WATCH_BUFFER_EVENTS`, default 10000), the byte cap (`WATCH_BUFFER_BYTES`,
default 64 MiB), and the abstracted serialized size of a `Put` event
(`serde_json::to_vec(&o).len()` with fallback 256). -/
structure WatchCfg where
  maxEvents : Nat
  maxBytes : Nat
  approxPut : Object → Nat

/-- The default caps (`mem.rs:52` and `mem.rs:56`). -/
def WatchCfg.default (approxPut : Object → Nat) : WatchCfg :=
  { maxEvents := 10000, maxBytes := 64 * 1024 * 1024, approxPut := approxPut }

/-- A per-subscriber buffer (`mem.rs:39-45`, `WatchBuffer`): queued events, the
consumer cursor, the approximate queued byte count, and the overflow flag. -/
structure WatchBuffer where
  events : List WatchEvent
  cursor : Nat
  bytes : Nat
  overflow : Bool
  deriving DecidableEq, Repr

/-- The freshly allocated buffer (`WatchBuffer::default()`). -/
def WatchBuffer.empty : WatchBuffer :=
  { events := [], cursor := 0, bytes := 0, overflow := false }

/-- The approximate byte weight of an event (`mem.rs:57-60`): a `Put` weighs its
serialized-JSON length (abstracted), a `Delete` weighs 64. -/
def WatchEvent.approx (cfg : WatchCfg) : WatchEvent → Nat
  | .put o => cfg.approxPut o
  | .delete _ _ _ => 64

/-- `WatchBuffer::push` (`mem.rs:48-69`): if either cap would be exceeded
(`*b + approx > max_bytes || w.len() + 1 > max_events`), set the overflow flag
and drop the event; otherwise append it and add its weight. -/
def WatchBuffer.push (cfg : WatchCfg) (b : WatchBuffer) (ev : WatchEvent) : WatchBuffer :=
  let approx := ev.approx cfg
  if cfg.maxBytes < b.bytes + approx ∨ cfg.maxEvents < b.events.length + 1 then
    { b with overflow := true }
  else
    { b with events := b.events ++ [ev], bytes := b.bytes + approx }

/-- The mutable state behind `InMemoryStore` (`mem.rs:19-37`, `Inner`), less the
tag/JSON secondary indexes (never read by a verified claim). -/
structure Inner where
  data : String × String → Option (List Object)
  buffers : String → List WatchBuffer
  commit_seq : String → Option Nat
  commit_log : String → List WatchEvent
  leases : String × String → Option (String × Nat × Nat)
  idem : String × String → Option IdempotencyRecord

/-- `Inner::default()` — every map empty. -/
def Inner.init : Inner :=
  { data := fun _ => none
    buffers := fun _ => []
    commit_seq := fun _ => none
    commit_log := fun _ => []
    leases := fun _ => none
    idem := fun _ => none }

/-- The per-namespace counter bump
`commit_seq.entry(ns).and_modify(|c| *c += 1).or_insert(1)`
(`mem.rs:171-175`, `mem.rs:339-343`, `mem.rs:442-446`). -/
def nextSeq (cur : Option Nat) : Nat :=
  match cur with
  | some c => c + 1
  | none => 1

/-- `InMemoryStore::put` (`mem.rs:169-215`): bump the namespace counter, stamp a
new version with the new value, append it to the `(ns,id)` version list, append
a `Put` event to the commit log, and fan it out to every subscriber buffer of
the namespace.  `id` is the resolved object id (the request's id, or the fresh
ULID `Object::new_with_seq` mints). -/
def Inner.putOp (s : Inner) (cfg : WatchCfg) (ns id : String) : Inner × Object :=
  let next := nextSeq (s.commit_seq ns)
  let obj : Object := { id := id, ns := ns, commit_seq := next }
  let key := (ns, id)
  let ev := WatchEvent.put obj
  ({ s with
      data := upd s.data key (some ((s.data key).getD [] ++ [obj]))
      commit_seq := upd s.commit_seq ns (some next)
      commit_log := upd s.commit_log ns (s.commit_log ns ++ [ev])
      buffers := upd s.buffers ns ((s.buffers ns).map (fun b => b.push cfg ev)) },
   obj)

/-- `InMemoryStore::delete` (`mem.rs:334-364`): remove the version list; if it
existed, bump the counter, log a `Delete` event and fan it out; else NotFound. -/
def Inner.deleteOp (s : Inner) (cfg : WatchCfg) (ns id : String) :
    Inner × Except StateError Unit :=
  let key := (ns, id)
  match s.data key with
  | some _ =>
    let s1 := { s with data := upd s.data key none }
    let next := nextSeq (s1.commit_seq ns)
    let ev := WatchEvent.delete ns id next
    ({ s1 with
        commit_seq := upd s1.commit_seq ns (some next)
        commit_log := upd s1.commit_log ns (s1.commit_log ns ++ [ev])
        buffers := upd s1.buffers ns ((s1.buffers ns).map (fun b => b.push cfg ev)) },
     .ok ())
  | none => (s, .error .notFound)

/-- `InMemoryStore::subscribe` (`mem.rs:366-397`): allocate a fresh buffer; when
`from_commit = Some(from)`, seed it with every commit-log event of the namespace
whose `commit_seq > from` (via `WatchBuffer::push`); register it; the returned
handle starts with `last_commit = from_commit.unwrap_or(0)`. -/
def Inner.subscribeOp (s : Inner) (cfg : WatchCfg) (ns : String)
    (fromCommit : Option Nat) : Inner × WatchBuffer × Nat :=
  let buf :=
    match fromCommit with
    | some fr =>
      (s.commit_log ns).foldl
        (fun b ev => if fr < ev.seq then b.push cfg ev else b) WatchBuffer.empty
    | none => WatchBuffer.empty
  ({ s with buffers := upd s.buffers ns (s.buffers ns ++ [buf]) },
   buf, fromCommit.getD 0)

/-- `InMemoryStore::lease_acquire` (`mem.rs:427-465`): read the current entry,
mint a token by bumping the namespace counter (before any conflict check), then
conflict if a non-expired lease of a different owner exists, else install
`(owner, token, now + ttl)`. -/
def Inner.lease_acquire (s : Inner) (ns key owner : String) (ttl now : Nat) :
    Inner × Except StateError Lease :=
  let expires := now + ttl
  let entry := s.leases (ns, key)
  let token := nextSeq (s.commit_seq ns)
  let s1 := { s with commit_seq := upd s.commit_seq ns (some token) }
  match entry with
  | some (curOwner, _, curExp) =>
    if now < curExp ∧ curOwner ≠ owner then
      (s1, .error (.conflict "lease held"))
    else
      ({ s1 with leases := upd s1.leases (ns, key) (some (owner, token, expires)) },
       .ok { ns := ns, key := key, owner := owner, token := token, expires_at := expires })
  | none =>
    ({ s1 with leases := upd s1.leases (ns, key) (some (owner, token, expires)) },
     .ok { ns := ns, key := key, owner := owner, token := token, expires_at := expires })

/-- `InMemoryStore::idempotency_lookup` (`mem.rs:510-525`) and the textually
identical `PersistentStore::idempotency_lookup` (`persistent.rs:209-223`), as a
function of the underlying idempotency map: absent key → `None`; matching
`body_hash` → the record; differing `body_hash` → Conflict. -/
def idempotency_lookup (idem : String × String → Option IdempotencyRecord)
    (ns key body_hash : String) : Except StateError (Option IdempotencyRecord) :=
  match idem (ns, key) with
  | some r =>
    if r.body_hash = body_hash then .ok (some r)
    else .error (.conflict "idempotency body mismatch")
  | none => .ok none

/-- `InMemoryStore::validate_fence` (`mem.rs:552-560`): succeed iff a lease for
the resource exists whose token equals the fence and which is unexpired. -/
def Inner.validate_fence (s : Inner) (ns resource : String) (fence now : Nat) :
    Except StateError Unit :=
  match s.leases (ns, resource) with
  | some (_, tok, exp) =>
    if tok = fence ∧ now < exp then .ok () else .error (.conflict "fence mismatch")
  | none => .error (.conflict "fence mismatch")

/-- `InMemoryStore::replay_put` (`mem.rs:87-120`): append the replayed object to
its version list and a `Put` event to the commit log.  It updates neither the
`commit_seq` counter map nor any subscriber buffer. -/
def Inner.replay_put (s : Inner) (obj : Object) : Inner :=
  let key := (obj.ns, obj.id)
  { s with
      data := upd s.data key (some ((s.data key).getD [] ++ [obj]))
      commit_log := upd s.commit_log obj.ns (s.commit_log obj.ns ++ [.put obj]) }

/-- `InMemoryStore::replay_delete` (`mem.rs:122-135`): drop the version list and
log a `Delete` event carrying the supplied commit sequence. -/
def Inner.replay_delete (s : Inner) (ns id : String) (commit_seq : Nat) : Inner :=
  { s with
      data := upd s.data (ns, id) none
      commit_log := upd s.commit_log ns (s.commit_log ns ++ [.delete ns id commit_seq]) }

/-- The watch handle (`mem.rs:576-580`, `MemWatch`): the subscriber's buffer and
its `last_commit` resume position. -/
structure MemWatch where
  buf : WatchBuffer
  ns : String
  last_commit : Nat

/-- `MemWatch::overflow_meta` (`mem.rs:611-626`): when the buffer has
overflowed, report `(last_commit, retry)` where `retry` is the integer midpoint
of `WATCH_RETRY_MIN_MS`/`WATCH_RETRY_MAX_MS` (defaults 250 and 4000), computed
in `u64` and cast back to `u32` — for `u32` inputs the sum is below `2 ^ 33` so
the division result is below `2 ^ 32` and the cast is exact. -/
def MemWatch.overflow_meta (retryMin retryMax : Nat) (h : MemWatch) :
    Option (Nat × Nat) :=
  if h.buf.overflow then some (h.last_commit, (retryMin + retryMax) / 2) else none

/-! ## WAL binary format (`agentstate-storage/src/walbin.rs`)

Bytes are `Nat`s; a well-formed byte is `< 256` (`ByteOK`).  The CRC32C of the
`crc32c` crate is the Castagnoli CRC in its standard reflected formulation:
state initialised to `0xFFFFFFFF`, each byte XORed into the low bits followed by
eight LSB-first polynomial-reduction steps with reflected polynomial
`0x82F63B78`, and a final complement. -/

/-- Every entry of a byte list is an actual byte. -/
def ByteOK (l : List Nat) : Prop := ∀ b ∈ l, b < 256

instance : DecidablePred ByteOK := fun l => by
  unfold ByteOK
  infer_instance

/-- The reflected CRC32C (Castagnoli) polynomial. -/
def CRC32C_POLY : Nat := 0x82F63B78

/-- One LSB-first CRC reduction step. -/
def crcBit (s : Nat) : Nat :=
  if s % 2 = 1 then (s / 2) ^^^ CRC32C_POLY else s / 2

/-- Absorb one byte: XOR it into the state, then reduce eight bits. -/
def crcByte (s b : Nat) : Nat := crcBit^[8] (s ^^^ b)

/-- Run the CRC state over a byte list. -/
def crcUpdate (s : Nat) (l : List Nat) : Nat := l.foldl crcByte s

/-- `crc32c(data)` (the `crc32c` crate): initial state `0xFFFFFFFF`, final
complement. -/
def crc32c (data : List Nat) : Nat := crcUpdate 0xFFFFFFFF data ^^^ 0xFFFFFFFF

/-- `w`-byte big-endian encoding of `n % 256 ^ w` (Rust `to_be_bytes`,
truncating to the field width). -/
def beBytes : Nat → Nat → List Nat
  | 0, _ => []
  | w + 1, n => beBytes w (n / 256) ++ [n % 256]

/-- Big-endian read of a byte list (how `u32::from_be_bytes` /
`u64::from_be_bytes` combine the bytes). -/
def readBENat (l : List Nat) : Nat := l.foldl (fun a b => a * 256 + b) 0

/-- The record magic `b"ASTW"` (`walbin.rs:16`). -/
def MAGIC : List Nat := [0x41, 0x53, 0x54, 0x57]

/-- The format version (`walbin.rs:17`). -/
def VER : Nat := 1

/-- The framed header built by `WalWriter::append` (`walbin.rs:222-229`):
magic, version, record type, reserved `ns_hash = 0`, `seq`, `ts`, body length. -/
def encHeader (typ seq ts len : Nat) : List Nat :=
  MAGIC ++ [VER, typ] ++ beBytes 8 0 ++ beBytes 8 seq ++ beBytes 8 ts ++ beBytes 4 len

/-- The full framed record (`walbin.rs:222-232`): header, body, and the CRC32C
of header ++ body as a big-endian `u32` trailer. -/
def encRecord (typ seq ts : Nat) (body : List Nat) : List Nat :=
  let rec0 := encHeader typ seq ts body.length ++ body
  rec0 ++ beBytes 4 (crc32c rec0)

/-- A framed record with the byte at body offset `i` overwritten by `v` while
the stored CRC trailer still covers the original body — a single corrupted body
byte inside an otherwise intact segment. -/
def encRecordCorrupt (typ seq ts : Nat) (body : List Nat) (i v : Nat) : List Nat :=
  (encHeader typ seq ts body.length ++ body.set i v) ++
    beBytes 4 (crc32c (encHeader typ seq ts body.length ++ body))

/-- The per-segment decode loop of `replay` (`walbin.rs:361-394`): read a
34-byte header (else stop), check the magic (else stop), read the `len`-byte
body and the 4-byte CRC trailer (else stop), recompute the CRC over
header ++ body and compare with the trailer (else stop), CBOR-decode the body
(`decodeBody` abstracts `ciborium::de::from_reader`; a failed decode skips the
record without stopping), and continue with the rest of the segment. -/
def replaySegment {β : Type} (decodeBody : List Nat → Option β) :
    List Nat → List β := fun bytes =>
  if h34 : 34 ≤ bytes.length then
    let hdr := bytes.take 34
    let r1 := bytes.drop 34
    if hdr.take 4 = MAGIC then
      let len := readBENat ((hdr.drop 30).take 4)
      if hlen : len ≤ r1.length then
        let body := r1.take len
        let r2 := r1.drop len
        if h4 : 4 ≤ r2.length then
          let crcbuf := r2.take 4
          let r3 := r2.drop 4
          if crc32c (hdr ++ body) = readBENat crcbuf then
            match decodeBody body with
            | some v => v :: replaySegment decodeBody r3
            | none => replaySegment decodeBody r3
          else []
        else []
      else []
    else []
  else []
termination_by bytes => bytes.length
decreasing_by
  all_goals simp only [List.length_drop]; omega

/-! ## WAL append path and fsync worker (`walbin.rs:217-318`)

The fsync worker's file I/O is modelled by an environment of fallible results.
The decisive feature of the source is that *every* I/O result inside
`fsync_worker` is bound to `_` and discarded (`walbin.rs:286` `write_all`,
`:297` `flush`, `:300` `sync_data`, `:304` `persist_manifest_at`), the
acknowledgements are sent unconditionally afterwards (`walbin.rs:313-315`), and
`WalWriter::append` itself discards the channel-send and ack-await results
(`walbin.rs:236-245` `let _ = self.tx.send(..)`, `let _ = rx.await`) and ends in
`Ok(())` — serialization failure panics (`.unwrap()`) rather than returning
`Err`. -/

/-- An enqueued WAL record (`walbin.rs:110-115`, `Enq`), less the ack channel. -/
structure Enq where
  recBytes : List Nat
  size : Nat
  seq : Nat
  deriving DecidableEq, Repr

/-- The outcome environment for the worker's fallible I/O calls. -/
structure WalIOEnv where
  writeRes : List Nat → Except String Unit
  flushRes : Except String Unit
  syncRes : Except String Unit
  manifestRes : Except String Unit

/-- One step of the worker's observable behaviour, in program order. -/
inductive WalTraceEv where
  | write (rec : List Nat) : WalTraceEv
  | flush : WalTraceEv
  | sync : WalTraceEv
  | persistManifest : WalTraceEv
  | ack (seq : Nat) : WalTraceEv
  deriving DecidableEq, Repr

/-- The body of `WalHandle::fsync_worker` for one drained batch
(`walbin.rs:282-316`): write every record, flush, `sync_data`, persist the
manifest — each result discarded with `let _ =` — then ack every batched
caller.  Returns the I/O trace in program order and the seqs acked. -/
def fsyncWorkerBatch (env : WalIOEnv) (batch : List Enq) :
    List WalTraceEv × List Nat :=
  let _writeResults := batch.map (fun e => env.writeRes e.recBytes)
  let _flushResult := env.flushRes
  let _syncResult := env.syncRes
  let _manifestResult := env.manifestRes
  ((batch.map (fun e => WalTraceEv.write e.recBytes)) ++
     [WalTraceEv.flush, WalTraceEv.sync, WalTraceEv.persistManifest] ++
     batch.map (fun e => WalTraceEv.ack e.seq),
   batch.map (fun e => e.seq))

/-- `WalWriter::append` (`walbin.rs:217-247`) for a record drained as its own
batch: frame the record, hand it to the worker, await the ack (which the worker
delivers unconditionally), and return — the function has no failing control
path, so the result is `Except.ok ()` for every I/O environment. -/
def walAppend (env : WalIOEnv) (typ seq ts : Nat) (bodyBytes : List Nat) :
    Except String Unit × List WalTraceEv :=
  let rec0 := encRecord typ seq ts bodyBytes
  let out := fsyncWorkerBatch env [{ recBytes := rec0, size := bodyBytes.length, seq := seq }]
  let _ack := out.2
  (.ok (), out.1)

/-- The WAL half of `PersistentStore::put` (`persistent.rs:88-102`): after the
in-memory put produced `o`, append the `Put` record and map an append error to
`StateError::Internal`.  `bodyBytes` abstracts the CBOR serialization of the
record body. -/
def persistentPutWal (env : WalIOEnv) (o : Object) (ts : Nat)
    (bodyBytes : List Nat) : Except StateError Object :=
  match (walAppend env 1 o.commit_seq ts bodyBytes).1 with
  | .ok _ => .ok o
  | .error e => .error (.internal e)

/-! ## Persistent store open / replay (`persistent.rs:20-58`) -/

/-- A decoded WAL record body (`walbin.rs:30-66`, `RecBody`).  For `Put` the
payload is the `serde_json::from_value::<Object>` decode result (`none` when
the stored JSON does not decode, `persistent.rs:30`); `response` of
`Idempotency` stands for the cached JSON value. -/
inductive RecBody where
  | put (ns : String) (obj : Option Object) : RecBody
  | delete (ns id : String) : RecBody
  | leaseAcquire (ns key owner : String) (token ttl : Nat) : RecBody
  | leaseRenew (ns key owner : String) (token ttl : Nat) : RecBody
  | leaseRelease (ns key owner : String) (token : Nat) : RecBody
  | idempotency (ns key : String) (response : String) (expires_ts : Int) : RecBody
  deriving DecidableEq, Repr

/-- The state `PersistentStore::open` rebuilds: the composed `InMemoryStore`
plus the store's own idempotency map (`persistent.rs:14-16`, initialised
empty at `persistent.rs:56`). -/
structure PersistentState where
  mem : Inner
  idem : String × String → Option IdempotencyRecord

/-- One iteration of the replay loop of `PersistentStore::open`
(`persistent.rs:27-50`), threading the local `max_seq_per_ns` map: a decodable
`Put` updates the per-namespace maximum and is applied via `replay_put`; a
`Delete` is applied via `replay_delete` stamped with the namespace's tracked
maximum (0 when unseen); lease and idempotency records are *not applied* — the
source arm is an explicit TODO (`persistent.rs:43-48`). -/
def applyReplayRec (acc : Inner × (String → Option Nat)) (r : RecBody) :
    Inner × (String → Option Nat) :=
  match r with
  | .put _ obj =>
    match obj with
    | some o =>
      let newMax :=
        match acc.2 o.ns with
        | some m => max m o.commit_seq
        | none => o.commit_seq
      (acc.1.replay_put o, upd acc.2 o.ns (some newMax))
    | none => acc
  | .delete ns id =>
    (acc.1.replay_delete ns id ((acc.2 ns).getD 0), acc.2)
  | .leaseAcquire _ _ _ _ _ => acc
  | .leaseRenew _ _ _ _ _ => acc
  | .leaseRelease _ _ _ _ => acc
  | .idempotency _ _ _ _ => acc

/-- `PersistentStore::open` (`persistent.rs:20-58`) applied to the record
sequence the WAL replay returned: fold the replay loop over a fresh
`InMemoryStore`; the store's own idempotency map starts empty.  The local
`max_seq_per_ns` map is dropped when the loop ends — nothing installs it into
the in-memory store's `commit_seq` counters. -/
def openReplay (recs : List RecBody) : PersistentState :=
  { mem := (recs.foldl applyReplayRec (Inner.init, fun _ => none)).1
    idem := fun _ => none }

/-! ## Operation sequences over the in-memory store -/

/-- A storage operation against `InMemoryStore` as used by the sequencing
claims: `put` and `delete` are the write operations; `leaseAcquire` carries its
oracle inputs (`now` being the instant `Utc::now()` returns). -/
inductive Op where
  | put (ns id : String) : Op
  | del (ns id : String) : Op
  | leaseAcquire (ns key owner : String) (ttl now : Nat) : Op
  deriving DecidableEq, Repr

/-- Whether an operation is a put or a delete (no lease operation). -/
def Op.isWrite : Op → Prop
  | .put _ _ => True
  | .del _ _ => True
  | .leaseAcquire _ _ _ _ _ => False

instance : DecidablePred Op.isWrite := fun op => by
  cases op <;> simp only [Op.isWrite] <;> infer_instance

/-- Apply one operation to the store state, discarding its result. -/
def applyOp (cfg : WatchCfg) (s : Inner) : Op → Inner
  | .put ns id => (s.putOp cfg ns id).1
  | .del ns id => (s.deleteOp cfg ns id).1
  | .leaseAcquire ns key owner ttl now => (s.lease_acquire ns key owner ttl now).1

/-- Run a sequence of operations. -/
def runOps (cfg : WatchCfg) (s : Inner) (ops : List Op) : Inner :=
  ops.foldl (applyOp cfg) s

/-- The lease tokens minted in namespace `ns` along a run, in order: each
`lease_acquire` on `ns` mints `nextSeq` of the namespace counter
(`mem.rs:441-448`), successful or not. -/
def mintsOf (cfg : WatchCfg) (s : Inner) (ops : List Op) (ns : String) :
    List Nat :=
  match ops with
  | [] => []
  | op :: rest =>
    let minted :=
      match op with
      | .leaseAcquire ns' _ _ _ _ =>
        if ns' = ns then [nextSeq (s.commit_seq ns)] else []
      | _ => []
    minted ++ mintsOf cfg (applyOp cfg s op) rest ns

/-! ## Commit sequencing (C1) -/

theorem nextSeq_eq (o : Option Nat) : nextSeq o = o.getD 0 + 1 := by
  cases o <;> rfl

theorem range'_one_concat (c : Nat) :
    List.range' 1 (c + 1) = List.range' 1 c ++ [c + 1] := by
  rw [List.range'_concat]
  congr 2
  omega

/-- The sequencing invariant: in every namespace, the commit-log events carry
exactly the sequences `1, 2, …, commit_seq[ns]`. -/
def SeqLogInv (s : Inner) : Prop :=
  ∀ ns, (s.commit_log ns).map WatchEvent.seq =
    List.range' 1 ((s.commit_seq ns).getD 0)

theorem seqLogInv_init : SeqLogInv Inner.init := by
  intro ns
  simp [Inner.init]

theorem seqLogInv_put (s : Inner) (cfg : WatchCfg) (ns id : String)
    (h : SeqLogInv s) : SeqLogInv (s.putOp cfg ns id).1 := by
  intro ns'
  by_cases hns : ns' = ns
  · subst hns
    simp only [Inner.putOp, upd_same]
    rw [List.map_append, h ns', nextSeq_eq]
    simp only [Option.getD_some]
    rw [range'_one_concat]
    simp [WatchEvent.seq]
  · simp only [Inner.putOp, upd_other _ _ _ _ hns]
    exact h ns'

theorem seqLogInv_delete (s : Inner) (cfg : WatchCfg) (ns id : String)
    (h : SeqLogInv s) : SeqLogInv (s.deleteOp cfg ns id).1 := by
  intro ns'
  rcases hd : s.data (ns, id) with _ | versions
  · simpa only [Inner.deleteOp, hd] using h ns'
  · by_cases hns : ns' = ns
    · subst hns
      simp only [Inner.deleteOp, hd, upd_same]
      rw [List.map_append, h ns', nextSeq_eq]
      simp only [Option.getD_some]
      rw [range'_one_concat]
      simp [WatchEvent.seq]
    · simp only [Inner.deleteOp, hd, upd_other _ _ _ _ hns]
      exact h ns'

theorem seqLogInv_run (cfg : WatchCfg) (ops : List Op) (s : Inner)
    (h : SeqLogInv s) (hw : ∀ op ∈ ops, op.isWrite) :
    SeqLogInv (runOps cfg s ops) := by
  induction ops generalizing s with
  | nil => exact h
  | cons op rest ih =>
    have hop : op.isWrite := hw op (List.mem_cons_self op rest)
    have hrest : ∀ o ∈ rest, o.isWrite := fun o ho => hw o (List.mem_cons_of_mem op ho)
    cases op with
    | put ns id => exact ih _ (seqLogInv_put s cfg ns id h) hrest
    | del ns id => exact ih _ (seqLogInv_delete s cfg ns id h) hrest
    | leaseAcquire ns key owner ttl now => exact absurd hop (by simp [Op.isWrite])

/-- C1.  For any interleaving of put and delete operations (no lease operation)
starting from a fresh store, the commit sequences embedded in the events of
`commit_log[N]` are exactly `1, 2, …, commit_seq[N]` in order — a strictly
increasing sequence starting at 1 in which every successful put and delete
contributes exactly one event stamped with the freshly bumped counter value. -/
theorem put_delete_commit_seqs_strictly_increasing_from_one
    (cfg : WatchCfg) (ops : List Op) (N : String)
    (hw : ∀ op ∈ ops, op.isWrite) :
    ((runOps cfg Inner.init ops).commit_log N).map WatchEvent.seq =
      List.range' 1 (((runOps cfg Inner.init ops).commit_seq N).getD 0) :=
  seqLogInv_run cfg ops Inner.init seqLogInv_init hw N

/-- A concrete configuration for witnesses: default caps, every serialized
`Put` estimated at 256 bytes. -/
def cfg0 : WatchCfg := WatchCfg.default (fun _ => 256)

/-- A concrete interleaving: three successful writes on `"a"`, a failed delete
on `"a"`, and a put on another namespace. -/
def ops0 : List Op :=
  [.put "a" "x", .put "a" "y", .del "a" "x", .del "a" "zzz", .put "b" "q"]

theorem put_delete_commit_seqs_strictly_increasing_from_one_witness :
    ((runOps cfg0 Inner.init ops0).commit_log "a").map WatchEvent.seq =
      List.range' 1 3 := by
  have h := put_delete_commit_seqs_strictly_increasing_from_one cfg0 ops0 "a"
    (by decide)
  have h2 : ((runOps cfg0 Inner.init ops0).commit_seq "a").getD 0 = 3 := by decide
  rw [h2] at h
  exact h

/-! ## Leases (C8, C9) -/

theorem lease_acquire_commit_seq (s : Inner) (ns key owner : String)
    (ttl now : Nat) :
    (s.lease_acquire ns key owner ttl now).1.commit_seq =
      upd s.commit_seq ns (some (nextSeq (s.commit_seq ns))) := by
  simp only [Inner.lease_acquire]
  rcases s.leases (ns, key) with _ | ⟨curOwner, curTok, curExp⟩
  · rfl
  · by_cases hc : now < curExp ∧ curOwner ≠ owner <;> simp [hc]

/-- The namespace counter never decreases under any operation. -/
theorem cnt_mono_applyOp (cfg : WatchCfg) (s : Inner) (op : Op) (ns : String) :
    (s.commit_seq ns).getD 0 ≤ ((applyOp cfg s op).commit_seq ns).getD 0 := by
  cases op with
  | put ns' id =>
    by_cases hns : ns = ns'
    · subst hns; simp [applyOp, Inner.putOp, nextSeq_eq]
    · simp [applyOp, Inner.putOp, upd_other _ _ _ _ hns]
  | del ns' id =>
    rcases hd : s.data (ns', id) with _ | versions
    · simp [applyOp, Inner.deleteOp, hd]
    · by_cases hns : ns = ns'
      · subst hns; simp [applyOp, Inner.deleteOp, hd, nextSeq_eq]
      · simp [applyOp, Inner.deleteOp, hd, upd_other _ _ _ _ hns]
  | leaseAcquire ns' key owner ttl now =>
    rw [show applyOp cfg s (.leaseAcquire ns' key owner ttl now) =
      (s.lease_acquire ns' key owner ttl now).1 from rfl,
      lease_acquire_commit_seq]
    by_cases hns : ns = ns'
    · subst hns; simp [nextSeq_eq]
    · simp [upd_other _ _ _ _ hns]

/-- Every token minted after state `s` exceeds the current counter of its
namespace. -/
theorem mintsOf_lt_of_cnt (cfg : WatchCfg) (ops : List Op) (s : Inner)
    (ns : String) : ∀ t ∈ mintsOf cfg s ops ns, (s.commit_seq ns).getD 0 < t := by
  induction ops generalizing s with
  | nil => intro t ht; simp [mintsOf] at ht
  | cons op rest ih =>
    intro t ht
    simp only [mintsOf, List.mem_append] at ht
    rcases ht with hhead | htail
    · cases op with
      | put ns' id => simp at hhead
      | del ns' id => simp at hhead
      | leaseAcquire ns' key owner ttl now =>
        by_cases hns : ns' = ns
        · subst hns
          simp at hhead
          subst hhead
          simp [nextSeq_eq]
        · simp [hns] at hhead
    · exact lt_of_le_of_lt (cnt_mono_applyOp cfg s op ns) (ih _ t htail)

/-- The counter right after a `lease_acquire` on namespace `ns` is the minted
token. -/
theorem cnt_after_acquire (s : Inner) (ns key owner : String) (ttl now : Nat) :
    ((s.lease_acquire ns key owner ttl now).1.commit_seq ns).getD 0 =
      (s.commit_seq ns).getD 0 + 1 := by
  rw [lease_acquire_commit_seq]
  simp [nextSeq_eq]

/-- Tokens minted in a namespace along any run strictly increase. -/
theorem mintsOf_pairwise (cfg : WatchCfg) (ops : List Op) (s : Inner)
    (ns : String) : List.Pairwise (· < ·) (mintsOf cfg s ops ns) := by
  induction ops generalizing s with
  | nil => simp [mintsOf]
  | cons op rest ih =>
    cases op with
    | put ns' id => simpa [mintsOf] using ih _
    | del ns' id => simpa [mintsOf] using ih _
    | leaseAcquire ns' key owner ttl now =>
      by_cases hns : ns' = ns
      · subst hns
        simp only [mintsOf, if_pos rfl, List.singleton_append]
        refine List.Pairwise.cons ?_ (ih _)
        intro t ht
        have hlt := mintsOf_lt_of_cnt cfg rest _ ns' t ht
        have hc := cnt_after_acquire s ns' key owner ttl now
        rw [show applyOp cfg s (.leaseAcquire ns' key owner ttl now) =
          (s.lease_acquire ns' key owner ttl now).1 from rfl, hc] at hlt
        rw [nextSeq_eq]
        omega
      · simpa [mintsOf, hns] using ih _

/-- The conflict condition of `lease_acquire`: a lease for the key exists,
it has not expired, and it is held by a different owner. -/
def AcquireConflict (s : Inner) (ns key owner : String) (now : Nat) : Prop :=
  ∃ curOwner curTok curExp,
    s.leases (ns, key) = some (curOwner, curTok, curExp) ∧
      now < curExp ∧ curOwner ≠ owner

/-- C8.  `lease_acquire` returns Conflict iff a non-expired lease held by a
different owner exists; otherwise it returns — and installs under `(ns, key)`,
the only slot the map has for the key, hence at most one lease per key — the
lease `(owner, token, now + ttl)` whose token is the freshly bumped namespace
counter; and the tokens minted in a namespace along any run of operations
strictly increase, so every new token exceeds every token previously minted in
the namespace. -/
theorem lease_acquire_conflict_iff_and_token_fresh
    (s : Inner) (ns key owner : String) (ttl now : Nat) :
    ((s.lease_acquire ns key owner ttl now).2 =
        .error (.conflict "lease held") ↔ AcquireConflict s ns key owner now)
    ∧ (¬ AcquireConflict s ns key owner now →
        (s.lease_acquire ns key owner ttl now).2 =
          .ok { ns := ns, key := key, owner := owner,
                token := (s.commit_seq ns).getD 0 + 1,
                expires_at := now + ttl } ∧
        (s.lease_acquire ns key owner ttl now).1.leases (ns, key) =
          some (owner, (s.commit_seq ns).getD 0 + 1, now + ttl))
    ∧ (∀ cfg ops N, List.Pairwise (· < ·) (mintsOf cfg Inner.init ops N)) := by
  refine ⟨?_, ?_, fun cfg ops N => mintsOf_pairwise cfg ops Inner.init N⟩
  · rcases hl : s.leases (ns, key) with _ | ⟨curOwner, curTok, curExp⟩
    · simp [Inner.lease_acquire, hl, AcquireConflict]
    · by_cases hc : now < curExp ∧ curOwner ≠ owner
      · simp only [Inner.lease_acquire, hl, if_pos hc]
        simp only [AcquireConflict, hl]
        constructor
        · intro _; exact ⟨curOwner, curTok, curExp, rfl, hc.1, hc.2⟩
        · intro _; trivial
      · simp only [Inner.lease_acquire, hl, if_neg hc]
        simp only [AcquireConflict, hl]
        constructor
        · intro h; exact absurd h (by simp)
        · rintro ⟨o, t, e, he, h1, h2⟩
          injection he with he
          obtain ⟨rfl, rfl, rfl⟩ : o = curOwner ∧ t = curTok ∧ e = curExp := by
            injection he with h1 h2
            injection h2 with h2 h3
            exact ⟨h1.symm, h2.symm, h3.symm⟩
          exact absurd ⟨h1, h2⟩ hc
  · intro hnc
    rcases hl : s.leases (ns, key) with _ | ⟨curOwner, curTok, curExp⟩
    · simp [Inner.lease_acquire, hl, nextSeq_eq]
    · have hc : ¬ (now < curExp ∧ curOwner ≠ owner) := by
        intro hc
        exact hnc ⟨curOwner, curTok, curExp, hl, hc.1, hc.2⟩
      simp [Inner.lease_acquire, hl, hc, nextSeq_eq]

/-- A concrete state for the lease witnesses: namespace counter of `"n"` at 7,
one lease on `("n","r")` held by `"alice"` with token 5 expiring at tick 100. -/
def leaseState : Inner :=
  { Inner.init with
      commit_seq := upd (fun _ => none) "n" (some 7)
      leases := upd (fun _ => none) ("n", "r") (some ("alice", 5, 100)) }

theorem lease_acquire_conflict_iff_and_token_fresh_witness :
    (Inner.init.lease_acquire "n" "r" "bob" 10 50).2 =
      .ok { ns := "n", key := "r", owner := "bob", token := 1,
            expires_at := 60 } := by
  have h := (lease_acquire_conflict_iff_and_token_fresh
    Inner.init "n" "r" "bob" 10 50).2.1 (by
      rintro ⟨o, t, e, he, _, _⟩
      simp [Inner.init] at he)
  exact h.1

/-- C9.  When `lease_acquire` hits a live lease of a different owner it returns
Conflict and leaves the lease map untouched, but the token minted *before* the
conflict check has already bumped the per-namespace counter, so the next put in
the namespace observes a commit sequence two above the pre-call counter —
skipping the value the failed acquire consumed. -/
theorem lease_acquire_conflict_consumes_seq (s : Inner) (cfg : WatchCfg)
    (ns key owner id : String) (ttl now : Nat)
    (curOwner : String) (curTok curExp : Nat)
    (hl : s.leases (ns, key) = some (curOwner, curTok, curExp))
    (hexp : now < curExp) (hown : curOwner ≠ owner) :
    (s.lease_acquire ns key owner ttl now).2 =
        .error (.conflict "lease held")
    ∧ (s.lease_acquire ns key owner ttl now).1.leases = s.leases
    ∧ (s.lease_acquire ns key owner ttl now).1.commit_seq ns =
        some ((s.commit_seq ns).getD 0 + 1)
    ∧ (((s.lease_acquire ns key owner ttl now).1.putOp cfg ns id).2).commit_seq =
        (s.commit_seq ns).getD 0 + 2 := by
  have hc : now < curExp ∧ curOwner ≠ owner := ⟨hexp, hown⟩
  refine ⟨by simp [Inner.lease_acquire, hl, hc], ?_, ?_, ?_⟩
  · simp [Inner.lease_acquire, hl, hc]
  · simp [Inner.lease_acquire, hl, hc, nextSeq_eq]
  · simp [Inner.lease_acquire, hl, hc, Inner.putOp, nextSeq_eq]

theorem lease_acquire_conflict_consumes_seq_witness :
    (leaseState.lease_acquire "n" "r" "bob" 10 50).2 =
        .error (.conflict "lease held")
    ∧ (leaseState.lease_acquire "n" "r" "bob" 10 50).1.leases = leaseState.leases
    ∧ (leaseState.lease_acquire "n" "r" "bob" 10 50).1.commit_seq "n" = some 8
    ∧ (((leaseState.lease_acquire "n" "r" "bob" 10 50).1.putOp cfg0 "n" "x").2).commit_seq = 9 :=
  lease_acquire_conflict_consumes_seq leaseState cfg0 "n" "r" "bob" "x" 10 50
    "alice" 5 100 rfl (by decide) (by decide)

/-! ## Idempotency lookup (C10) -/

/-- C10.  `idempotency_lookup` decides by presence and `body_hash` alone — the
stored record's `expires_at` is universally quantified and never consulted: a
stored record (however stale) is returned when the hash matches, yields
Conflict when it differs, and only an absent key yields `None`. -/
theorem idempotency_lookup_ignores_expiry
    (idem : String × String → Option IdempotencyRecord)
    (ns key body_hash : String) :
    (∀ r, idem (ns, key) = some r →
      (r.body_hash = body_hash →
        idempotency_lookup idem ns key body_hash = .ok (some r))
      ∧ (r.body_hash ≠ body_hash →
        idempotency_lookup idem ns key body_hash =
          .error (.conflict "idempotency body mismatch")))
    ∧ (idem (ns, key) = none →
        idempotency_lookup idem ns key body_hash = .ok none) := by
  constructor
  · intro r hr
    constructor
    · intro hh; simp [idempotency_lookup, hr, hh]
    · intro hh; simp [idempotency_lookup, hr, hh]
  · intro hn; simp [idempotency_lookup, hn]

/-- An idempotency record whose `expires_at` is far in the past. -/
def staleRecord : IdempotencyRecord :=
  { ns := "n", key := "k", body_hash := "h1", response_hash := "rh",
    commit_seq := 3, expires_at := 0, response := "resp" }

/-- A one-record idempotency map holding the stale record. -/
def staleIdem : String × String → Option IdempotencyRecord :=
  upd (fun _ => none) ("n", "k") (some staleRecord)

theorem idempotency_lookup_ignores_expiry_witness :
    idempotency_lookup staleIdem "n" "k" "h1" = .ok (some staleRecord) ∧
    idempotency_lookup staleIdem "n" "k" "h2" =
      .error (.conflict "idempotency body mismatch") := by
  constructor
  · exact ((idempotency_lookup_ignores_expiry staleIdem "n" "k" "h1").1
      staleRecord rfl).1 (by decide)
  · exact ((idempotency_lookup_ignores_expiry staleIdem "n" "k" "h2").1
      staleRecord rfl).2 (by decide)

/-! ## Watch buffers: subscribe seeding (C6) and caps/overflow (C7) -/

/-- The buffer `subscribe` seeds for `from_commit = some k` (the loop at
`mem.rs:374-386`). -/
def seedBuffer (cfg : WatchCfg) (log : List WatchEvent) (k : Nat) : WatchBuffer :=
  log.foldl (fun b ev => if k < ev.seq then b.push cfg ev else b) WatchBuffer.empty

theorem subscribeOp_buffer (s : Inner) (cfg : WatchCfg) (ns : String) (k : Nat) :
    (s.subscribeOp cfg ns (some k)).2.1 = seedBuffer cfg (s.commit_log ns) k := rfl

/-- Pushing never removes events, and a push preserves "events so far are a
prefix-respecting selection": the seeded events are always a sublist of the
kept events plus drops. -/
theorem push_events_cases (cfg : WatchCfg) (b : WatchBuffer) (ev : WatchEvent) :
    (b.push cfg ev).events = b.events ∨
      (b.push cfg ev).events = b.events ++ [ev] := by
  by_cases h : cfg.maxBytes < b.bytes + ev.approx cfg ∨
      cfg.maxEvents < b.events.length + 1
  · left; simp [WatchBuffer.push, h]
  · right; simp [WatchBuffer.push, h]

theorem push_overflow_mono (cfg : WatchCfg) (b : WatchBuffer) (ev : WatchEvent)
    (h : b.overflow = true) : (b.push cfg ev).overflow = true := by
  by_cases hc : cfg.maxBytes < b.bytes + ev.approx cfg ∨
      cfg.maxEvents < b.events.length + 1
  · simp [WatchBuffer.push, hc]
  · simp [WatchBuffer.push, hc, h]

theorem push_events_of_no_overflow (cfg : WatchCfg) (b : WatchBuffer)
    (ev : WatchEvent) (h : (b.push cfg ev).overflow = false) :
    (b.push cfg ev).events = b.events ++ [ev] ∧ b.overflow = false := by
  by_cases hc : cfg.maxBytes < b.bytes + ev.approx cfg ∨
      cfg.maxEvents < b.events.length + 1
  · exact absurd h (by simp [WatchBuffer.push, hc])
  · constructor
    · simp [WatchBuffer.push, hc]
    · by_contra hb
      have : b.overflow = true := by revert hb; cases b.overflow <;> simp
      exact absurd h (by simp [WatchBuffer.push, hc, this])

/-- If the seeding fold ends without overflow, it kept exactly the events that
pass the `commit_seq > k` test, in order, and the starting buffer had not
overflowed either. -/
theorem seed_foldl_no_overflow (cfg : WatchCfg) (k : Nat) (log : List WatchEvent)
    (b : WatchBuffer)
    (h : (log.foldl (fun b ev => if k < ev.seq then b.push cfg ev else b) b).overflow
        = false) :
    (log.foldl (fun b ev => if k < ev.seq then b.push cfg ev else b) b).events =
      b.events ++ log.filter (fun ev => decide (k < ev.seq)) ∧
    b.overflow = false := by
  induction log generalizing b with
  | nil => exact ⟨by simp, h⟩
  | cons ev rest ih =>
    by_cases hk : k < ev.seq
    · rw [List.foldl_cons, if_pos hk] at h ⊢
      obtain ⟨hev, hb⟩ := ih (b.push cfg ev) h
      obtain ⟨hpushed, hb0⟩ := push_events_of_no_overflow cfg b ev hb
      refine ⟨?_, hb0⟩
      rw [hev, hpushed]
      simp [List.filter_cons, hk]
    · rw [List.foldl_cons, if_neg hk] at h ⊢
      obtain ⟨hev, hb⟩ := ih b h
      refine ⟨?_, hb⟩
      rw [hev]
      simp [List.filter_cons, hk]

/-- Whatever happens with the caps, the seeding fold appends a subselection of
the filtered log, in log order. -/
theorem seed_foldl_sublist (cfg : WatchCfg) (k : Nat) (log : List WatchEvent)
    (b : WatchBuffer) :
    ∃ sel, sel.Sublist (log.filter (fun ev => decide (k < ev.seq))) ∧
      (log.foldl (fun b ev => if k < ev.seq then b.push cfg ev else b) b).events =
        b.events ++ sel := by
  induction log generalizing b with
  | nil => exact ⟨[], by simp, by simp⟩
  | cons ev rest ih =>
    by_cases hk : k < ev.seq
    · rw [List.foldl_cons, if_pos hk]
      rcases push_events_cases cfg b ev with hpush | hpush
      · obtain ⟨sel, hsub, hev⟩ := ih (b.push cfg ev)
        refine ⟨sel, ?_, by rw [hev, hpush]⟩
        simp only [List.filter_cons, hk, decide_True, if_pos]
        exact hsub.trans (List.sublist_cons_self ev _)
      · obtain ⟨sel, hsub, hev⟩ := ih (b.push cfg ev)
        refine ⟨ev :: sel, ?_, ?_⟩
        · simp only [List.filter_cons, hk, decide_True, if_pos]
          exact hsub.cons_cons ev
        · rw [hev, hpush]
          simp
    · rw [List.foldl_cons, if_neg hk]
      obtain ⟨sel, hsub, hev⟩ := ih b
      refine ⟨sel, ?_, hev⟩
      simpa [List.filter_cons, hk] using hsub

/-- C6.  For `subscribe` with `from_commit = some k` on namespace `ns`: absent
overflow, the freshly allocated buffer is seeded with exactly the commit-log
events whose `commit_seq > k`, in log order; and unconditionally the seeded
events are an in-order subselection of those events, so no event with
`commit_seq ≤ k` is ever seeded. -/
theorem subscribe_seed_exact (s : Inner) (cfg : WatchCfg) (ns : String) (k : Nat) :
    ((s.subscribeOp cfg ns (some k)).2.1.overflow = false →
      (s.subscribeOp cfg ns (some k)).2.1.events =
        (s.commit_log ns).filter (fun ev => decide (k < ev.seq)))
    ∧ (s.subscribeOp cfg ns (some k)).2.1.events.Sublist
        ((s.commit_log ns).filter (fun ev => decide (k < ev.seq)))
    ∧ ∀ ev ∈ (s.subscribeOp cfg ns (some k)).2.1.events, k < ev.seq := by
  have hbuf : (s.subscribeOp cfg ns (some k)).2.1 =
      seedBuffer cfg (s.commit_log ns) k := rfl
  rw [hbuf]
  refine ⟨?_, ?_, ?_⟩
  · intro hof
    have := seed_foldl_no_overflow cfg k (s.commit_log ns) WatchBuffer.empty hof
    simpa [WatchBuffer.empty, seedBuffer] using this.1
  · obtain ⟨sel, hsub, hev⟩ :=
      seed_foldl_sublist cfg k (s.commit_log ns) WatchBuffer.empty
    rw [show seedBuffer cfg (s.commit_log ns) k =
      (s.commit_log ns).foldl
        (fun b ev => if k < ev.seq then b.push cfg ev else b) WatchBuffer.empty
      from rfl, hev]
    simpa [WatchBuffer.empty] using hsub
  · intro ev hev
    obtain ⟨sel, hsub, hevs⟩ :=
      seed_foldl_sublist cfg k (s.commit_log ns) WatchBuffer.empty
    rw [show seedBuffer cfg (s.commit_log ns) k =
      (s.commit_log ns).foldl
        (fun b ev => if k < ev.seq then b.push cfg ev else b) WatchBuffer.empty
      from rfl, hevs] at hev
    simp only [WatchBuffer.empty, List.nil_append] at hev
    have := hsub.subset hev
    simpa using (List.mem_filter.mp this).2

/-- A concrete three-event commit log on namespace `"a"`. -/
def logState : Inner :=
  { Inner.init with
      commit_log := upd (fun _ => [])
        "a" [.put { id := "x", ns := "a", commit_seq := 1 },
             .put { id := "y", ns := "a", commit_seq := 2 },
             .delete "a" "x" 3] }

theorem subscribe_seed_exact_witness :
    (logState.subscribeOp cfg0 "a" (some 1)).2.1.events =
      [.put { id := "y", ns := "a", commit_seq := 2 },
       .delete "a" "x" 3] := by
  have h := (subscribe_seed_exact logState cfg0 "a" 1).1 (by decide)
  rw [h]
  decide

/-- Pushing onto a buffer within its caps keeps it within its caps. -/
theorem pushMany_caps (cfg : WatchCfg) (evs : List WatchEvent) (b : WatchBuffer)
    (hlen : b.events.length ≤ cfg.maxEvents) (hbytes : b.bytes ≤ cfg.maxBytes) :
    (evs.foldl (fun b e => b.push cfg e) b).events.length ≤ cfg.maxEvents ∧
    (evs.foldl (fun b e => b.push cfg e) b).bytes ≤ cfg.maxBytes := by
  induction evs generalizing b with
  | nil => exact ⟨hlen, hbytes⟩
  | cons ev rest ih =>
    rw [List.foldl_cons]
    by_cases hc : cfg.maxBytes < b.bytes + ev.approx cfg ∨
        cfg.maxEvents < b.events.length + 1
    · exact ih _ (by simpa [WatchBuffer.push, hc] using hlen)
        (by simpa [WatchBuffer.push, hc] using hbytes)
    · have hc' := hc
      push_neg at hc'
      refine ih _ ?_ ?_
      · simp only [WatchBuffer.push, if_neg hc, List.length_append,
          List.length_cons, List.length_nil]
        omega
      · simp only [WatchBuffer.push, if_neg hc]
        omega

/-- C7.  A push that would exceed the event cap or the byte cap sets the
overflow flag and drops the event, so a buffer fed from empty never holds more
events than `maxEvents` nor more (approximate) bytes than `maxBytes`; once
overflow is set, `overflow_meta` reports `(last_commit, (min + max) / 2)` — the
midpoint of the configured retry bounds, which under the defaults 250/4000 ms
lies within [250, 4000] — and it reports `none` while overflow is unset. -/
theorem watch_buffer_caps_and_overflow_meta (cfg : WatchCfg) :
    (∀ (b : WatchBuffer) (ev : WatchEvent),
      (cfg.maxBytes < b.bytes + ev.approx cfg ∨
        cfg.maxEvents < b.events.length + 1) →
      b.push cfg ev = { b with overflow := true })
    ∧ (∀ evs : List WatchEvent,
        (evs.foldl (fun b e => b.push cfg e) WatchBuffer.empty).events.length ≤
          cfg.maxEvents ∧
        (evs.foldl (fun b e => b.push cfg e) WatchBuffer.empty).bytes ≤
          cfg.maxBytes)
    ∧ (∀ (h : MemWatch) (rmin rmax : Nat),
        (h.buf.overflow = true →
          h.overflow_meta rmin rmax = some (h.last_commit, (rmin + rmax) / 2))
        ∧ (h.buf.overflow = false → h.overflow_meta rmin rmax = none))
    ∧ (250 ≤ (250 + 4000) / 2 ∧ (250 + 4000) / 2 ≤ 4000) := by
  refine ⟨?_, ?_, ?_, by omega⟩
  · intro b ev hc
    simp [WatchBuffer.push, hc]
  · intro evs
    exact pushMany_caps cfg evs WatchBuffer.empty (by simp [WatchBuffer.empty])
      (by simp [WatchBuffer.empty])
  · intro h rmin rmax
    constructor
    · intro hof; simp [MemWatch.overflow_meta, hof]
    · intro hof; simp [MemWatch.overflow_meta, hof]

/-- A small configuration for the overflow witness: at most 2 events. -/
def cfgW : WatchCfg := { maxEvents := 2, maxBytes := 1000, approxPut := fun _ => 256 }

/-- A buffer already holding 2 events (at the `cfgW` cap). -/
def bufW : WatchBuffer :=
  { events := [.delete "a" "x" 1, .delete "a" "y" 2], cursor := 0,
    bytes := 128, overflow := false }

/-- A watch handle whose buffer has overflowed, resumed at commit 5. -/
def watchW : MemWatch :=
  { buf := { bufW with overflow := true }, ns := "a", last_commit := 5 }

theorem watch_buffer_caps_and_overflow_meta_witness :
    bufW.push cfgW (.delete "a" "z" 3) = { bufW with overflow := true }
    ∧ (([.delete "a" "x" 1, .delete "a" "y" 2, .delete "a" "z" 3] :
        List WatchEvent).foldl (fun b e => b.push cfgW e)
          WatchBuffer.empty).events.length ≤ cfgW.maxEvents
    ∧ watchW.overflow_meta 250 4000 = some (5, 2125) := by
  refine ⟨(watch_buffer_caps_and_overflow_meta cfgW).1 bufW _ (by decide),
    ((watch_buffer_caps_and_overflow_meta cfgW).2.1 _).1, ?_⟩
  have h := ((watch_buffer_caps_and_overflow_meta cfgW).2.2.1 watchW 250 4000).1 rfl
  rw [h]
  rfl

/-! ## Restart replay drops counters, leases and idempotency (C2, C5) -/

/-- A WAL record sequence with two decodable Puts on namespace `"a"`, of
maximum `commit_seq` 2. -/
def recsPuts : List RecBody :=
  [.put "a" (some { id := "x", ns := "a", commit_seq := 1 }),
   .put "a" (some { id := "y", ns := "a", commit_seq := 2 })]

/-- C2 (refuted on the code).  After replaying a WAL whose Puts on `"a"` reach
`commit_seq` M = 2, the rebuilt store's counter for `"a"` is *absent* — the
replay loop tracks `max_seq_per_ns` but never installs it, and `replay_put`
does not touch `commit_seq` — so the first put after the restart is stamped
`commit_seq` 1 (a reused value), not M + 1 = 3.  The replayed events are in the
commit log, so the store really did observe M = 2. -/
theorem open_replay_drops_commit_counter :
    ((openReplay recsPuts).mem.commit_log "a").map WatchEvent.seq = [1, 2]
    ∧ (openReplay recsPuts).mem.commit_seq "a" = none
    ∧ (((openReplay recsPuts).mem.putOp cfg0 "a" "z").2).commit_seq = 1
    ∧ (((openReplay recsPuts).mem.putOp cfg0 "a" "z").2).commit_seq ≠ 2 + 1 := by
  refine ⟨by decide, by decide, by decide, by decide⟩

/-- A WAL record sequence holding a lease acquisition and an idempotency
record. -/
def recsLeaseIdem : List RecBody :=
  [.leaseAcquire "n" "r" "alice" 5 60, .idempotency "n" "k" "resp" 99]

/-- C5 (refuted on the code).  `PersistentStore::open` leaves every
`LeaseAcquire`/`LeaseRenew`/`LeaseRelease`/`Idempotency` record of the replayed
WAL unapplied (the match arm is an explicit TODO), so after a restart the
lease is gone — `validate_fence` rejects the pre-crash fence token — and the
idempotency record is gone — `idempotency_lookup` answers `None`. -/
theorem open_replay_ignores_lease_and_idempotency_records :
    (openReplay recsLeaseIdem).mem.leases ("n", "r") = none
    ∧ (openReplay recsLeaseIdem).idem ("n", "k") = none
    ∧ idempotency_lookup (openReplay recsLeaseIdem).idem "n" "k" "anyhash" =
        .ok none
    ∧ (openReplay recsLeaseIdem).mem.validate_fence "n" "r" 5 30 =
        .error (.conflict "fence mismatch") := by
  refine ⟨by decide, by decide, rfl, rfl⟩

/-! ## WAL append error swallowing (C3) -/

/-- An I/O environment whose `sync_data` fails with `EIO`; all other
operations succeed. -/
def envSyncFail : WalIOEnv :=
  { writeRes := fun _ => .ok ()
    flushRes := .ok ()
    syncRes := .error "EIO"
    manifestRes := .ok () }

/-- The object whose `Put` record rides the failing batch. -/
def objC3 : Object := { id := "x", ns := "a", commit_seq := 1 }

/-- C3 (refuted on the code).  `WalWriter::append` returns `Ok(())` for *every*
I/O environment — the worker binds each write/flush/`sync_data`/manifest result
to `_` and acks unconditionally, and `append` discards the send and ack-await
results — so when the batch fsync fails with EIO the caller's put still
succeeds instead of returning Internal.  The second half of the claim does
hold: in the worker's program-order trace the `sync` precedes every `ack`. -/
theorem wal_append_swallows_io_errors :
    (∀ (env : WalIOEnv) (typ seq ts : Nat) (bodyBytes : List Nat),
      (walAppend env typ seq ts bodyBytes).1 = .ok ())
    ∧ persistentPutWal envSyncFail objC3 17 [0xA0] = .ok objC3
    ∧ (fsyncWorkerBatch envSyncFail
        [{ recBytes := encRecord 1 1 17 [0xA0], size := 1, seq := 1 }]).2 = [1]
    ∧ (walAppend envSyncFail 1 1 17 [0xA0]).2 =
        [.write (encRecord 1 1 17 [0xA0]), .flush, .sync, .persistManifest,
         .ack 1] := by
  exact ⟨fun env typ seq ts bodyBytes => rfl, rfl, rfl, rfl⟩

/-! ## CRC32C facts (for C4)

The single-byte-corruption property rests on the GF(2)-linearity of the CRC
step: `crcBit` is additive over XOR and has trivial kernel on 32-bit states, so
two messages differing in exactly one byte keep different CRC states forever
after. -/

theorem crcBit_lt (s : Nat) (h : s < 2 ^ 32) : crcBit s < 2 ^ 32 := by
  unfold crcBit
  split
  · exact Nat.xor_lt_two_pow (by omega) (by norm_num [CRC32C_POLY])
  · omega

theorem xor_left_comm (a b c : Nat) : a ^^^ (b ^^^ c) = b ^^^ (a ^^^ c) := by
  rw [← Nat.xor_assoc, Nat.xor_comm a b, Nat.xor_assoc]

theorem crcBit_xor (a b : Nat) : crcBit (a ^^^ b) = crcBit a ^^^ crcBit b := by
  have hdiv : (a ^^^ b) / 2 = a / 2 ^^^ b / 2 := Nat.xor_div_two
  unfold crcBit
  rcases Nat.mod_two_eq_zero_or_one a with ha | ha <;>
    rcases Nat.mod_two_eq_zero_or_one b with hb | hb
  · have hab : (a ^^^ b) % 2 = 0 := by
      rcases Nat.mod_two_eq_zero_or_one (a ^^^ b) with h2 | h2
      · exact h2
      · exact absurd (Nat.xor_mod_two_eq_one.mp h2) (by simp [ha, hb])
    simp only [ha, hb, hab]
    simp [hdiv]
  · have hab : (a ^^^ b) % 2 = 1 := Nat.xor_mod_two_eq_one.mpr (by simp [ha, hb])
    simp only [ha, hb, hab]
    simp [hdiv, Nat.xor_assoc, Nat.xor_comm, xor_left_comm]
  · have hab : (a ^^^ b) % 2 = 1 := Nat.xor_mod_two_eq_one.mpr (by simp [ha, hb])
    simp only [ha, hb, hab]
    simp [hdiv, Nat.xor_assoc, Nat.xor_comm, xor_left_comm]
  · have hab : (a ^^^ b) % 2 = 0 := by
      rcases Nat.mod_two_eq_zero_or_one (a ^^^ b) with h2 | h2
      · exact h2
      · exact absurd (Nat.xor_mod_two_eq_one.mp h2) (by simp [ha, hb])
    simp only [ha, hb, hab]
    simp [hdiv, Nat.xor_assoc, Nat.xor_comm, xor_left_comm, Nat.xor_cancel_left]

theorem crcBit_eq_zero (s : Nat) (hs : s < 2 ^ 32) (h : crcBit s = 0) : s = 0 := by
  unfold crcBit at h
  rcases Nat.mod_two_eq_zero_or_one s with hp | hp
  · rw [if_neg (by omega)] at h
    omega
  · rw [if_pos hp] at h
    have : s / 2 = CRC32C_POLY := Nat.xor_eq_zero.mp h
    have hP : CRC32C_POLY = 0x82F63B78 := rfl
    omega

theorem crcBit_iter_lt (n s : Nat) (h : s < 2 ^ 32) : crcBit^[n] s < 2 ^ 32 := by
  induction n generalizing s with
  | zero => exact h
  | succ n ih => rw [Function.iterate_succ_apply]; exact ih _ (crcBit_lt s h)

theorem crcBit_iter_xor (n a b : Nat) :
    crcBit^[n] (a ^^^ b) = crcBit^[n] a ^^^ crcBit^[n] b := by
  induction n generalizing a b with
  | zero => rfl
  | succ n ih =>
    rw [Function.iterate_succ_apply, Function.iterate_succ_apply,
      Function.iterate_succ_apply, crcBit_xor, ih]

theorem crcBit_iter_eq_zero (n s : Nat) (hs : s < 2 ^ 32)
    (h : crcBit^[n] s = 0) : s = 0 := by
  induction n generalizing s with
  | zero => exact h
  | succ n ih =>
    rw [Function.iterate_succ_apply] at h
    exact crcBit_eq_zero s hs (ih _ (crcBit_lt s hs) h)

theorem crcByte_lt (s b : Nat) (hs : s < 2 ^ 32) (hb : b < 256) :
    crcByte s b < 2 ^ 32 := by
  unfold crcByte
  exact crcBit_iter_lt 8 _ (Nat.xor_lt_two_pow hs (by omega))

theorem crcByte_xor_crcByte (s₁ s₂ b : Nat) :
    crcByte s₁ b ^^^ crcByte s₂ b = crcBit^[8] (s₁ ^^^ s₂) := by
  unfold crcByte
  rw [← crcBit_iter_xor]
  congr 1
  simp [Nat.xor_assoc, Nat.xor_comm, xor_left_comm, Nat.xor_cancel_left]

theorem crcByte_inj (s₁ s₂ b : Nat) (h₁ : s₁ < 2 ^ 32) (h₂ : s₂ < 2 ^ 32)
    (h : crcByte s₁ b = crcByte s₂ b) : s₁ = s₂ := by
  have hx : crcByte s₁ b ^^^ crcByte s₂ b = 0 := by rw [h, Nat.xor_self]
  rw [crcByte_xor_crcByte] at hx
  exact Nat.xor_eq_zero.mp
    (crcBit_iter_eq_zero 8 _ (Nat.xor_lt_two_pow h₁ h₂) hx)

theorem crcByte_ne_of_byte_ne (s x y : Nat) (hx : x < 256) (hy : y < 256)
    (hne : x ≠ y) : crcByte s x ≠ crcByte s y := by
  intro h
  have hx0 : crcByte s x ^^^ crcByte s y = 0 := by rw [h, Nat.xor_self]
  unfold crcByte at hx0
  rw [← crcBit_iter_xor] at hx0
  have hsx : (s ^^^ x) ^^^ (s ^^^ y) = x ^^^ y := by
    simp [Nat.xor_assoc, Nat.xor_comm, xor_left_comm, Nat.xor_cancel_left]
  rw [hsx] at hx0
  have : x ^^^ y = 0 :=
    crcBit_iter_eq_zero 8 _ (Nat.xor_lt_two_pow (by omega) (by omega)) hx0
  exact hne (Nat.xor_eq_zero.mp this)

theorem crcUpdate_lt (l : List Nat) (s : Nat) (hs : s < 2 ^ 32)
    (hl : ByteOK l) : crcUpdate s l < 2 ^ 32 := by
  induction l generalizing s with
  | nil => exact hs
  | cons b rest ih =>
    rw [crcUpdate, List.foldl_cons]
    exact ih _ (crcByte_lt s b hs (hl b (List.mem_cons_self b rest)))
      (fun b hb => hl b (List.mem_cons_of_mem _ hb))

theorem crcUpdate_inj (l : List Nat) (s₁ s₂ : Nat) (h₁ : s₁ < 2 ^ 32)
    (h₂ : s₂ < 2 ^ 32) (hl : ByteOK l)
    (h : crcUpdate s₁ l = crcUpdate s₂ l) : s₁ = s₂ := by
  induction l generalizing s₁ s₂ with
  | nil => exact h
  | cons b rest ih =>
    simp only [crcUpdate, List.foldl_cons] at h
    have hb : b < 256 := hl b (List.mem_cons_self b rest)
    exact crcByte_inj s₁ s₂ b h₁ h₂
      (ih _ _ (crcByte_lt s₁ b h₁ hb) (crcByte_lt s₂ b h₂ hb)
        (fun c hc => hl c (List.mem_cons_of_mem _ hc)) h)

/-- Changing one byte of a message changes its CRC32C. -/
theorem crc32c_ne_of_single_byte (pre suf : List Nat) (x y : Nat)
    (hpre : ByteOK pre) (hsuf : ByteOK suf) (hx : x < 256) (hy : y < 256)
    (hne : x ≠ y) :
    crc32c (pre ++ x :: suf) ≠ crc32c (pre ++ y :: suf) := by
  intro h
  have hsplit : ∀ z, crcUpdate 0xFFFFFFFF (pre ++ z :: suf) =
      crcUpdate (crcByte (crcUpdate 0xFFFFFFFF pre) z) suf := by
    intro z
    rw [crcUpdate, List.foldl_append, List.foldl_cons]
    rfl
  have hs : crcUpdate 0xFFFFFFFF pre < 2 ^ 32 :=
    crcUpdate_lt pre _ (by norm_num) hpre
  have hu : crcUpdate 0xFFFFFFFF (pre ++ x :: suf) =
      crcUpdate 0xFFFFFFFF (pre ++ y :: suf) := by
    have hc : crcUpdate 0xFFFFFFFF (pre ++ x :: suf) ^^^ 0xFFFFFFFF =
        crcUpdate 0xFFFFFFFF (pre ++ y :: suf) ^^^ 0xFFFFFFFF := h
    have := congrArg (fun t => t ^^^ 0xFFFFFFFF) hc
    simpa [Nat.xor_assoc] using this
  rw [hsplit x, hsplit y] at hu
  have hbytes := crcUpdate_inj suf _ _
    (crcByte_lt _ x hs hx) (crcByte_lt _ y hs hy) hsuf hu
  exact crcByte_ne_of_byte_ne _ x y hx hy hne hbytes

theorem crc32c_lt (l : List Nat) (hl : ByteOK l) : crc32c l < 2 ^ 32 := by
  unfold crc32c
  exact Nat.xor_lt_two_pow (crcUpdate_lt l _ (by norm_num) hl) (by norm_num)

/-! ## WAL frame structure lemmas (for C4) -/

theorem beBytes_length (w n : Nat) : (beBytes w n).length = w := by
  induction w generalizing n with
  | zero => rfl
  | succ w ih => simp [beBytes, ih]

theorem beBytes_byteOK (w n : Nat) : ByteOK (beBytes w n) := by
  induction w generalizing n with
  | zero => intro b hb; simp [beBytes] at hb
  | succ w ih =>
    intro b hb
    simp only [beBytes, List.mem_append, List.mem_singleton] at hb
    rcases hb with hb | hb
    · exact ih _ b hb
    · subst hb; exact Nat.mod_lt n (by omega)

theorem readBENat_append_singleton (l : List Nat) (b : Nat) :
    readBENat (l ++ [b]) = readBENat l * 256 + b := by
  simp [readBENat, List.foldl_append]

theorem readBENat_beBytes (w n : Nat) : readBENat (beBytes w n) = n % 256 ^ w := by
  induction w generalizing n with
  | zero => simp [beBytes, readBENat, Nat.mod_one]
  | succ w ih =>
    rw [beBytes, readBENat_append_singleton, ih]
    have h1 : (256 : Nat) ^ (w + 1) = 256 * 256 ^ w := by ring
    rw [h1, Nat.mod_mul]
    ring

theorem readBENat_beBytes_of_lt (w n : Nat) (h : n < 256 ^ w) :
    readBENat (beBytes w n) = n := by
  rw [readBENat_beBytes, Nat.mod_eq_of_lt h]

theorem byteOK_append (l₁ l₂ : List Nat) :
    ByteOK (l₁ ++ l₂) ↔ ByteOK l₁ ∧ ByteOK l₂ := by
  simp only [ByteOK, List.mem_append]
  constructor
  · intro h; exact ⟨fun b hb => h b (Or.inl hb), fun b hb => h b (Or.inr hb)⟩
  · rintro ⟨h₁, h₂⟩ b (hb | hb)
    · exact h₁ b hb
    · exact h₂ b hb

/-- The 30-byte header prefix before the length field. -/
theorem encHeader_split (typ seq ts len : Nat) :
    encHeader typ seq ts len =
      (MAGIC ++ [VER, typ] ++ beBytes 8 0 ++ beBytes 8 seq ++ beBytes 8 ts) ++
        beBytes 4 len := rfl

theorem encHeader_pre30_length (typ seq ts : Nat) :
    (MAGIC ++ [VER, typ] ++ beBytes 8 0 ++ beBytes 8 seq ++
      beBytes 8 ts).length = 30 := by
  simp [MAGIC, beBytes_length, List.length_append]

theorem encHeader_length (typ seq ts len : Nat) :
    (encHeader typ seq ts len).length = 34 := by
  rw [encHeader_split, List.length_append, encHeader_pre30_length, beBytes_length]

theorem encHeader_take4 (typ seq ts len : Nat) :
    (encHeader typ seq ts len).take 4 = MAGIC := by
  simp only [encHeader, List.append_assoc]
  apply List.take_left'
  rfl

theorem encHeader_lenfield (typ seq ts len : Nat) :
    ((encHeader typ seq ts len).drop 30).take 4 = beBytes 4 len := by
  rw [encHeader_split, List.drop_left' (encHeader_pre30_length typ seq ts)]
  exact List.take_of_length_le (by simp [beBytes_length])

theorem encHeader_byteOK (typ seq ts len : Nat) (htyp : typ < 256) :
    ByteOK (encHeader typ seq ts len) := by
  rw [encHeader_split]
  refine (byteOK_append _ _).mpr ⟨?_, beBytes_byteOK 4 len⟩
  refine (byteOK_append _ _).mpr ⟨?_, beBytes_byteOK 8 ts⟩
  refine (byteOK_append _ _).mpr ⟨?_, beBytes_byteOK 8 seq⟩
  refine (byteOK_append _ _).mpr ⟨?_, beBytes_byteOK 8 0⟩
  refine (byteOK_append _ _).mpr ⟨?_, ?_⟩
  · intro b hb; simp [MAGIC] at hb; omega
  · intro b hb
    simp only [VER, List.mem_cons, List.mem_singleton, List.not_mem_nil,
      or_false] at hb
    rcases hb with hb | hb
    · omega
    · subst hb; exact htyp

/-- One unfolding of `replaySegment` with the termination-only proofs erased
and the lets expanded. -/
theorem replaySegment_eq {β : Type} (d : List Nat → Option β) (bytes : List Nat) :
    replaySegment d bytes =
      if 34 ≤ bytes.length then
        if (bytes.take 34).take 4 = MAGIC then
          if readBENat (((bytes.take 34).drop 30).take 4) ≤ (bytes.drop 34).length then
            if 4 ≤ ((bytes.drop 34).drop
                (readBENat (((bytes.take 34).drop 30).take 4))).length then
              if crc32c (bytes.take 34 ++ (bytes.drop 34).take
                  (readBENat (((bytes.take 34).drop 30).take 4))) =
                  readBENat (((bytes.drop 34).drop
                    (readBENat (((bytes.take 34).drop 30).take 4))).take 4) then
                match d ((bytes.drop 34).take
                    (readBENat (((bytes.take 34).drop 30).take 4))) with
                | some v => v :: replaySegment d (((bytes.drop 34).drop
                    (readBENat (((bytes.take 34).drop 30).take 4))).drop 4)
                | none => replaySegment d (((bytes.drop 34).drop
                    (readBENat (((bytes.take 34).drop 30).take 4))).drop 4)
              else []
            else []
          else []
        else []
      else [] := by
  rw [replaySegment]
  simp only [dite_eq_ite]

/-- Decoding a well-framed record at the head of a segment consumes exactly
that record and recurses on the rest. -/
theorem replaySegment_step {β : Type} (d : List Nat → Option β)
    (hdr body crcb rest : List Nat)
    (hhdr : hdr.length = 34) (hmagic : hdr.take 4 = MAGIC)
    (hlenfield : readBENat ((hdr.drop 30).take 4) = body.length)
    (hcrcb : crcb.length = 4)
    (hcrc : readBENat crcb = crc32c (hdr ++ body)) :
    replaySegment d (hdr ++ (body ++ (crcb ++ rest))) =
      match d body with
      | some v => v :: replaySegment d rest
      | none => replaySegment d rest := by
  have h1 : (hdr ++ (body ++ (crcb ++ rest))).take 34 = hdr := List.take_left' hhdr
  have h2 : (hdr ++ (body ++ (crcb ++ rest))).drop 34 = body ++ (crcb ++ rest) :=
    List.drop_left' hhdr
  rw [replaySegment_eq]
  simp only [h1, h2, hlenfield, hmagic, List.take_left, List.drop_left,
    List.take_left' hcrcb, List.drop_left' hcrcb]
  rw [if_pos (by simp [List.length_append, hhdr]),
    if_pos trivial,
    if_pos (by simp [List.length_append]),
    if_pos (by simp [List.length_append, hcrcb]),
    if_pos hcrc.symm]

/-- A structurally intact head record whose stored CRC does not match the
recomputed CRC stops the segment scan. -/
theorem replaySegment_stop {β : Type} (d : List Nat → Option β)
    (hdr body crcb rest : List Nat)
    (hhdr : hdr.length = 34) (hmagic : hdr.take 4 = MAGIC)
    (hlenfield : readBENat ((hdr.drop 30).take 4) = body.length)
    (hcrcb : crcb.length = 4)
    (hcrc : readBENat crcb ≠ crc32c (hdr ++ body)) :
    replaySegment d (hdr ++ (body ++ (crcb ++ rest))) = [] := by
  have h1 : (hdr ++ (body ++ (crcb ++ rest))).take 34 = hdr := List.take_left' hhdr
  have h2 : (hdr ++ (body ++ (crcb ++ rest))).drop 34 = body ++ (crcb ++ rest) :=
    List.drop_left' hhdr
  rw [replaySegment_eq]
  simp only [h1, h2, hlenfield, hmagic, List.take_left, List.drop_left,
    List.take_left' hcrcb, List.drop_left' hcrcb]
  rw [if_pos (by simp [List.length_append, hhdr]),
    if_pos trivial,
    if_pos (by simp [List.length_append]),
    if_pos (by simp [List.length_append, hcrcb]),
    if_neg (fun h => hcrc h.symm)]

/-- A record as submitted to `WalWriter::append`: type byte, `seq`, `ts`, and
the CBOR-serialized body bytes. -/
structure Frame where
  typ : Nat
  seq : Nat
  ts : Nat
  body : List Nat
  deriving DecidableEq, Repr

/-- Well-formedness of a frame as `append` produces it: a one-byte type, body
made of bytes, body length within the `u32` length field. -/
def WFframe (f : Frame) : Prop :=
  f.typ < 256 ∧ ByteOK f.body ∧ f.body.length < 2 ^ 32

instance : DecidablePred WFframe := fun f => by
  unfold WFframe ByteOK
  infer_instance

/-- A segment's bytes: the frames' framed records, concatenated. -/
def encodeFrames : List Frame → List Nat
  | [] => []
  | f :: fs => encRecord f.typ f.seq f.ts f.body ++ encodeFrames fs

theorem twoPow32_eq : (256 : Nat) ^ 4 = 2 ^ 32 := by norm_num

theorem replaySegment_encRecord {β : Type} (d : List Nat → Option β)
    (typ seq ts : Nat) (body rest : List Nat)
    (htyp : typ < 256) (hbody : ByteOK body) (hlen : body.length < 2 ^ 32) :
    replaySegment d (encRecord typ seq ts body ++ rest) =
      match d body with
      | some v => v :: replaySegment d rest
      | none => replaySegment d rest := by
  have hassoc : encRecord typ seq ts body ++ rest =
      encHeader typ seq ts body.length ++
        (body ++ (beBytes 4
          (crc32c (encHeader typ seq ts body.length ++ body)) ++ rest)) := by
    simp [encRecord, List.append_assoc]
  rw [hassoc]
  refine replaySegment_step d _ _ _ _ (encHeader_length _ _ _ _)
    (encHeader_take4 _ _ _ _) ?_ (beBytes_length _ _) ?_
  · rw [encHeader_lenfield]
    exact readBENat_beBytes_of_lt 4 _ (by rw [twoPow32_eq]; exact hlen)
  · refine readBENat_beBytes_of_lt 4 _ (by
      rw [twoPow32_eq]
      exact crc32c_lt _ ((byteOK_append _ _).mpr
        ⟨encHeader_byteOK _ _ _ _ htyp, hbody⟩))

/-- Setting the element right after a prefix. -/
theorem set_at_length_append (pre : List Nat) (x v : Nat) (suf : List Nat) :
    (pre ++ x :: suf).set pre.length v = pre ++ v :: suf := by
  induction pre with
  | nil => rfl
  | cons a l ih => simp [List.set, ih]

theorem replaySegment_encRecordCorrupt {β : Type} (d : List Nat → Option β)
    (typ seq ts : Nat) (bpre : List Nat) (x : Nat) (bsuf : List Nat) (v : Nat)
    (more : List Nat) (htyp : typ < 256) (hbody : ByteOK (bpre ++ x :: bsuf))
    (hlenB : (bpre ++ x :: bsuf).length < 2 ^ 32)
    (hv : v < 256) (hne : v ≠ x) :
    replaySegment d
      (encRecordCorrupt typ seq ts (bpre ++ x :: bsuf) bpre.length v ++ more) =
      [] := by
  have hset : (bpre ++ x :: bsuf).set bpre.length v = bpre ++ v :: bsuf :=
    set_at_length_append bpre x v bsuf
  have hassoc : encRecordCorrupt typ seq ts (bpre ++ x :: bsuf) bpre.length v
      ++ more =
      encHeader typ seq ts (bpre ++ x :: bsuf).length ++
        ((bpre ++ v :: bsuf) ++ (beBytes 4
          (crc32c (encHeader typ seq ts (bpre ++ x :: bsuf).length ++
            (bpre ++ x :: bsuf))) ++ more)) := by
    rw [encRecordCorrupt, hset]
    simp [List.append_assoc]
  rw [hassoc]
  have hlen' : (bpre ++ v :: bsuf).length = (bpre ++ x :: bsuf).length := by
    simp [List.length_append]
  have hhdrOK : ByteOK (encHeader typ seq ts (bpre ++ x :: bsuf).length) :=
    encHeader_byteOK _ _ _ _ htyp
  have hxOK : x < 256 := hbody x (by simp)
  have hpreOK : ByteOK bpre := ((byteOK_append _ _).mp hbody).1
  have hsufOK : ByteOK bsuf := by
    have := ((byteOK_append _ _).mp hbody).2
    intro b hb
    exact this b (List.mem_cons_of_mem x hb)
  refine replaySegment_stop d _ _ _ _ (encHeader_length _ _ _ _)
    (encHeader_take4 _ _ _ _) ?_ (beBytes_length _ _) ?_
  · rw [encHeader_lenfield, hlen']
    exact readBENat_beBytes_of_lt 4 _ (by rw [twoPow32_eq]; exact hlenB)
  · rw [readBENat_beBytes_of_lt 4 _ (by
      rw [twoPow32_eq]
      exact crc32c_lt _ ((byteOK_append _ _).mpr ⟨hhdrOK, hbody⟩))]
    have hpre' : ByteOK (encHeader typ seq ts (bpre ++ x :: bsuf).length ++ bpre) :=
      (byteOK_append _ _).mpr ⟨hhdrOK, hpreOK⟩
    have h1 : encHeader typ seq ts (bpre ++ x :: bsuf).length ++
        (bpre ++ x :: bsuf) =
        (encHeader typ seq ts (bpre ++ x :: bsuf).length ++ bpre) ++ x :: bsuf := by
      simp [List.append_assoc]
    have h2 : encHeader typ seq ts (bpre ++ x :: bsuf).length ++
        (bpre ++ v :: bsuf) =
        (encHeader typ seq ts (bpre ++ x :: bsuf).length ++ bpre) ++ v :: bsuf := by
      simp [List.append_assoc]
    rw [h1, h2]
    exact crc32c_ne_of_single_byte _ bsuf x v hpre' hsufOK hxOK hv (fun h => hne h.symm)

/-- Decoding a segment that starts with well-formed framed records yields those
records' decoded bodies followed by whatever the rest of the segment yields. -/
theorem replaySegment_encodeFrames {β : Type} (d : List Nat → Option β)
    (fs : List Frame) (tail : List Nat) (hwf : ∀ f ∈ fs, WFframe f) :
    replaySegment d (encodeFrames fs ++ tail) =
      fs.filterMap (fun f => d f.body) ++ replaySegment d tail := by
  induction fs with
  | nil => simp [encodeFrames]
  | cons f fs ih =>
    have hf : WFframe f := hwf f (List.mem_cons_self f fs)
    have hfs : ∀ g ∈ fs, WFframe g := fun g hg => hwf g (List.mem_cons_of_mem f hg)
    rw [encodeFrames, List.append_assoc,
      replaySegment_encRecord d f.typ f.seq f.ts f.body _ hf.1 hf.2.1 hf.2.2,
      List.filterMap_cons]
    rcases hD : d f.body with _ | v
    · simpa [hD] using ih hfs
    · simp only [hD]
      rw [ih hfs]
      rfl

/-- The replay loop's stop conditions for the first record of a byte stream
(`walbin.rs:362-394`): a short header read, a magic mismatch, a short body
read, a short CRC-trailer read, or a CRC mismatch. -/
def BadSegmentHead (bytes : List Nat) : Prop :=
  bytes.length < 34
  ∨ (bytes.take 34).take 4 ≠ MAGIC
  ∨ bytes.length < 34 + readBENat (((bytes.take 34).drop 30).take 4)
  ∨ bytes.length < 34 + readBENat (((bytes.take 34).drop 30).take 4) + 4
  ∨ crc32c (bytes.take 34 ++ (bytes.drop 34).take
      (readBENat (((bytes.take 34).drop 30).take 4))) ≠
      readBENat (((bytes.drop 34).drop
        (readBENat (((bytes.take 34).drop 30).take 4))).take 4)

instance : DecidablePred BadSegmentHead := fun bytes => by
  unfold BadSegmentHead
  infer_instance

/-- A segment whose first record trips any stop condition decodes to nothing. -/
theorem replaySegment_eq_nil_of_bad {β : Type} (d : List Nat → Option β)
    (bytes : List Nat) (h : BadSegmentHead bytes) :
    replaySegment d bytes = [] := by
  rw [replaySegment_eq]
  split_ifs with h1 h2 h3 h4 h5
  · exfalso
    have e1 : (bytes.drop 34).length = bytes.length - 34 :=
      List.length_drop 34 bytes
    have e2 : ((bytes.drop 34).drop
        (readBENat (((bytes.take 34).drop 30).take 4))).length =
        (bytes.drop 34).length - readBENat (((bytes.take 34).drop 30).take 4) :=
      List.length_drop _ _
    rcases h with h | h | h | h | h
    · omega
    · exact h h2
    · rw [e1] at h3; omega
    · rw [e2, e1] at h4; omega
    · exact h h5
  all_goals rfl

/-- C4.  WAL replay decodes each segment sequentially from the start; at the
first structurally bad record (short header, wrong magic, short body, short
CRC trailer) or first CRC mismatch the remainder of the segment is discarded
while every well-formed record before that point is returned (through the
abstracted CBOR decoder `d`); in particular, overwriting any single body byte
of a record with a different byte value — while the stored trailer keeps the
original CRC — causes that record and everything after it in the segment to be
skipped. -/
theorem wal_replay_stops_at_first_bad_record {β : Type} (d : List Nat → Option β) :
    (∀ (fs : List Frame) (tail : List Nat),
      (∀ f ∈ fs, WFframe f) → BadSegmentHead tail →
      replaySegment d (encodeFrames fs ++ tail) =
        fs.filterMap (fun f => d f.body))
    ∧ (∀ (fs : List Frame) (typ seq ts : Nat) (bpre : List Nat) (x : Nat)
        (bsuf : List Nat) (v : Nat) (more : List Nat),
      (∀ f ∈ fs, WFframe f) → typ < 256 → ByteOK (bpre ++ x :: bsuf) →
      (bpre ++ x :: bsuf).length < 2 ^ 32 → v < 256 → v ≠ x →
      replaySegment d
        (encodeFrames fs ++
          (encRecordCorrupt typ seq ts (bpre ++ x :: bsuf) bpre.length v ++
            more)) =
        fs.filterMap (fun f => d f.body)) := by
  constructor
  · intro fs tail hwf hbad
    rw [replaySegment_encodeFrames d fs tail hwf,
      replaySegment_eq_nil_of_bad d tail hbad, List.append_nil]
  · intro fs typ seq ts bpre x bsuf v more hwf htyp hbody hlen hv hne
    rw [replaySegment_encodeFrames d fs _ hwf,
      replaySegment_encRecordCorrupt d typ seq ts bpre x bsuf v more htyp
        hbody hlen hv hne,
      List.append_nil]

/-- The identity body decoder used by the replay witness. -/
def dW : List Nat → Option (List Nat) := fun l => some l

/-- Two well-formed frames for the replay witness. -/
def framesW : List Frame :=
  [{ typ := 1, seq := 1, ts := 100, body := [0xAB] },
   { typ := 2, seq := 2, ts := 101, body := [0xCD, 0x01] }]

theorem wal_replay_stops_at_first_bad_record_witness :
    replaySegment dW (encodeFrames framesW ++ [0x7F]) = [[0xAB], [0xCD, 0x01]]
    ∧ replaySegment dW
        (encodeFrames [{ typ := 1, seq := 1, ts := 100, body := [0xAB] }] ++
          (encRecordCorrupt 2 2 101 [0xCD, 0x01] 0 0xCE ++
            encodeFrames [{ typ := 3, seq := 3, ts := 102, body := [0xEE] }])) =
      [[0xAB]] := by
  constructor
  · exact ((wal_replay_stops_at_first_bad_record dW).1 framesW [0x7F]
      (by decide) (by decide)).trans (by decide)
  · exact ((wal_replay_stops_at_first_bad_record dW).2
      [{ typ := 1, seq := 1, ts := 100, body := [0xAB] }] 2 2 101 [] 0xCD
      [0x01] 0xCE
      (encodeFrames [{ typ := 3, seq := 3, ts := 102, body := [0xEE] }])
      (by decide) (by decide) (by decide) (by decide) (by decide)
      (by decide)).trans (by decide)

end AgentState
